import Mathlib

/-!
Shallow embedding of the cold-boot orchestrator (src/init/coldboot.cpp),
the subprocess supervisor (src/init/coldboot_subprocess.cpp), the thread-pool
lifecycle contract (tested by the ThreadPool test suite) and the module-path
canonicalization helper, together with theorems settling the specification
claims about them.
-/

namespace SystemCore

/-! ## Strided partition (src/init/coldboot_subprocess.cpp)

Both ColdBoot::UeventHandlerMain and ColdBoot::RestoreConHandler walk their
queue with `for (unsigned int i = process_num; i < queue.size(); i += total_processes)`.
`strideIndices start step N` is the exact list of indices such a loop visits. -/

def strideLoop (step N : Nat) : Nat → Nat → List Nat
  | 0, _ => []
  | fuel + 1, i => if i < N then i :: strideLoop step N fuel (i + step) else []

def strideIndices (start step N : Nat) : List Nat :=
  strideLoop step N (N - start) start

/-- Embedding of ColdBoot::UeventHandlerMain: worker `process_num` out of
`total_processes` visits every backlog index it owns (stride loop) and, for each
owned uevent, applies every registered uevent handler in order. The result is
the ordered list of (backlog index, handler id) applications performed. -/
def ueventHandlerMain (process_num total_processes queueSize : Nat)
    (uevent_handlers : List Nat) : List (Nat × Nat) :=
  (strideIndices process_num total_processes queueSize).flatMap
    (fun i => uevent_handlers.map (fun h => (i, h)))

/-- Embedding of ColdBoot::RestoreConHandler: worker `process_num` out of
`total_processes` performs, for every owned index of the restorecon queue, a
recursive (`SELINUX_ANDROID_RESTORECON_RECURSE`) context restoration of that
directory. The result is the ordered list of (path, recursive flag) calls. -/
def restoreConHandler (process_num total_processes : Nat)
    (restorecon_queue : List String) : List (String × Bool) :=
  (strideIndices process_num total_processes restorecon_queue.length).map
    (fun i => (restorecon_queue.getD i "", true))

/-- Behaviour of one forked child in ColdBoot::ForkSubProcesses: run
UeventHandlerMain, run RestoreConHandler only when parallel restorecon is
enabled, then `_exit(EXIT_SUCCESS)` (status 0). -/
structure ChildRun where
  ueventWork : List (Nat × Nat)
  restoreconWork : List (String × Bool)
  exitStatus : Nat
deriving DecidableEq

def childRun (i total queueSize : Nat) (uevent_handlers : List Nat)
    (enable_parallel_restorecon : Bool) (restorecon_queue : List String) : ChildRun :=
  { ueventWork := ueventHandlerMain i total queueSize uevent_handlers
  , restoreconWork :=
      if enable_parallel_restorecon then restoreConHandler i total restorecon_queue else []
  , exitStatus := 0 }

/-- Parent-side loop of ColdBoot::ForkSubProcesses over worker indices: a fork
returning a negative pid (`none` here) is `PLOG(FATAL)`, which aborts the loop
and the process; otherwise the pid is added to `subprocess_pids_`. -/
def forkLoop (fork : Nat → Option Nat) : List Nat → List Nat → Option (List Nat)
  | [], pids => some pids
  | i :: rest, pids =>
    match fork i with
    | none => none
    | some pid => forkLoop fork rest (pids ++ [pid])

def forkSubProcesses (fork : Nat → Option Nat) (num_handler_subprocesses : Nat) :
    Option (List Nat) :=
  forkLoop fork (List.range num_handler_subprocesses) []

/-! ## Reap loop (ColdBoot::WaitForSubProcesses) -/

/-- Result of one `waitpid(-1, &status, 0)` call: either a reaped pid with its
wait status, or a wait error (`waitpid` returned -1). -/
inductive WaitStatus where
  | exited (code : Nat)
  | signaled (sig : Nat)
deriving DecidableEq

inductive WaitEvent where
  | reaped (pid : Nat) (status : WaitStatus)
  | waitError
deriving DecidableEq

inductive WaitStep where
  | continueWith (tracked : List Nat)
  | fatal
deriving DecidableEq

/-- One iteration of the loop body of ColdBoot::WaitForSubProcesses: a wait
error is logged and retried; a pid not in `subprocess_pids_` is skipped; a
tracked pid exiting with `EXIT_SUCCESS` (0) is erased from the set; any other
exit code and any signal death is `LOG(FATAL)`. -/
def waitStep (subprocess_pids : List Nat) (ev : WaitEvent) : WaitStep :=
  match ev with
  | .waitError => .continueWith subprocess_pids
  | .reaped pid st =>
    if pid ∈ subprocess_pids then
      match st with
      | .exited code =>
        if code = 0 then .continueWith (subprocess_pids.erase pid) else .fatal
      | .signaled _ => .fatal
    else .continueWith subprocess_pids

inductive WaitOutcome where
  | done
  | fatal
  | waiting (tracked : List Nat)
deriving DecidableEq

/-- The `while (!subprocess_pids_.empty())` loop of WaitForSubProcesses, driven
by the sequence of waitpid results; `waiting` means the event sequence ran out
while children were still tracked (the loop would keep blocking in waitpid). -/
def waitForSubProcesses : List Nat → List WaitEvent → WaitOutcome
  | [], _ => .done
  | p :: ps, [] => .waiting (p :: ps)
  | p :: ps, ev :: rest =>
    match waitStep (p :: ps) ev with
    | .continueWith t' => waitForSubProcesses t' rest
    | .fatal => .fatal

/-! ## Orchestrator (src/init/coldboot.cpp) -/

structure DirEntry where
  name : String
  isDir : Bool
  statOk : Bool
deriving DecidableEq

/-- Embedding of ColdBoot::GenerateRestoreCon: `entries = none` models an
opendir failure (warn and return, queue untouched). Otherwise each readdir
entry is processed in order: "." and ".." are skipped, entries whose fstatat
fails are skipped, and for each directory entry the full path
`directory ++ "/" ++ name` is appended to `restorecon_queue_` unless it already
occurs in `parallel_restorecon_queue_`. -/
def restoreConEntryStep (parallel_restorecon_queue : List String) (directory : String)
    (q : List String) (e : DirEntry) : List String :=
  if e.name = "." ∨ e.name = ".." then q
  else if e.statOk = false then q
  else if e.isDir = true then
    let fullpath := directory ++ "/" ++ e.name
    if fullpath ∈ parallel_restorecon_queue then q else q ++ [fullpath]
  else q

def generateRestoreCon (parallel_restorecon_queue restorecon_queue : List String)
    (directory : String) (entries : Option (List DirEntry)) : List String :=
  match entries with
  | none => restorecon_queue
  | some es =>
    es.foldl (restoreConEntryStep parallel_restorecon_queue directory) restorecon_queue

structure ColdBootState where
  enable_parallel_restorecon : Bool
  parallel_restorecon_queue : List String
  restorecon_queue : List String
  uevent_queue : List Nat
deriving DecidableEq

/-- Externally visible actions of ColdBoot::Run, in program order. -/
inductive Effect where
  | regenerateUevents
  | restorecon (path : String) (recursive : Bool)
  | forkSubProcesses
  | waitForSubProcesses
  | setProperty (propName value : String)
deriving DecidableEq

/-- Name of the cold-boot completion property published by ColdBoot::Run
(declared outside the studied sources; its exact literal is immaterial here). -/
def kColdBootDoneProp : String := "ro.cold_boot_done"

/-- One iteration of the seed-discovery loop in ColdBoot::Run: non-recursive
restorecon of the parallel target, then GenerateRestoreCon on it. -/
def seedStep (listing : String → Option (List DirEntry))
    (acc : ColdBootState × List Effect) (dir : String) : ColdBootState × List Effect :=
  ({ acc.1 with
      restorecon_queue :=
        generateRestoreCon acc.1.parallel_restorecon_queue acc.1.restorecon_queue dir
          (listing dir) },
   acc.2 ++ [Effect.restorecon dir false])

/-- RegenerateUevents: the listener callback appends every replayed uevent to
the backlog (always continuing the replay). -/
def runRegenerate (pending : List Nat) (s : ColdBootState) : ColdBootState :=
  { s with uevent_queue := s.uevent_queue ++ pending }

/-- Defaulting step at the top of the `if (enable_parallel_restorecon_)` block
of ColdBoot::Run: when the parallel restorecon queue is empty, it is set to
["/sys", "/sys/devices"]. -/
def runDefaultTargets (s : ColdBootState) : ColdBootState :=
  if s.enable_parallel_restorecon ∧ s.parallel_restorecon_queue = [] then
    { s with parallel_restorecon_queue := ["/sys", "/sys/devices"] }
  else s

/-- Seed-discovery loop of ColdBoot::Run, executed only when parallel
restorecon is enabled: for each parallel target, a non-recursive restorecon
followed by GenerateRestoreCon. -/
def runSeedPhase (listing : String → Option (List DirEntry)) (s : ColdBootState) :
    ColdBootState × List Effect :=
  if s.enable_parallel_restorecon then
    s.parallel_restorecon_queue.foldl (seedStep listing) (s, [])
  else (s, [])

/-- Embedding of ColdBoot::Run: regenerate uevents into the backlog; if parallel
restorecon is enabled, default an empty parallel target list to
["/sys", "/sys/devices"] and run the seed loop over the parallel targets; fork
the subprocesses; if parallel restorecon is not enabled, recursively restorecon
"/sys" in the parent; wait for the subprocesses; finally publish the cold-boot
done property. Returns the final state and the trace of effects. -/
def coldBootRun (listing : String → Option (List DirEntry)) (pending : List Nat)
    (s : ColdBootState) : ColdBootState × List Effect :=
  let seeded := runSeedPhase listing (runDefaultTargets (runRegenerate pending s))
  (seeded.1,
   [Effect.regenerateUevents] ++ seeded.2 ++ [Effect.forkSubProcesses]
     ++ (if seeded.1.enable_parallel_restorecon then [] else [Effect.restorecon "/sys" true])
     ++ [Effect.waitForSubProcesses, Effect.setProperty kColdBootDoneProp "true"])

/-! ## ThreadPool lifecycle (spec-modelled)

The ThreadPool implementation (thread_pool.h / thread_pool.cpp) is not among
the studied sources; only its black-box test suite is. The state machine below
is modelled from the spec. -/

inductive PoolPhase where
  | running
  | stopping
  | stopped
deriving DecidableEq

/-- Modelled from the spec: pool-wide state of the missing ThreadPool class.
`queue` is the FIFO task queue (tasks as identifiers), `busy` the number of
workers currently executing a task, `executed` the ordered record of tasks
whose execution has started (each dispatched exactly once). -/
structure PoolState where
  phase : PoolPhase
  queue : List Nat
  busy : Nat
  executed : List Nat
deriving DecidableEq

inductive PoolEvent where
  | enqueue (task : Nat)
  | beginWait
  | startTask
  | finishTask
  | reachStopped
deriving DecidableEq

inductive PoolStep where
  | ok (s : PoolState)
  | blocked
  | fatalCrash
deriving DecidableEq

/-- Modelled from the spec: one transition of the missing ThreadPool.
Enqueue appends in Running and Stopping and is a fatal programming error in
Stopped; Wait moves Running to Stopping; a worker dequeues the front task
(recording its execution) or finishes one; the pool reaches Stopped only from
Stopping with an empty queue and no busy worker. -/
def poolStep (s : PoolState) (e : PoolEvent) : PoolStep :=
  match e with
  | .enqueue t =>
    match s.phase with
    | .stopped => .fatalCrash
    | _ => .ok { s with queue := s.queue ++ [t] }
  | .beginWait =>
    match s.phase with
    | .running => .ok { s with phase := .stopping }
    | _ => .blocked
  | .startTask =>
    match s.queue with
    | [] => .blocked
    | t :: rest =>
      .ok { s with queue := rest, busy := s.busy + 1, executed := s.executed ++ [t] }
  | .finishTask =>
    match s.busy with
    | 0 => .blocked
    | b + 1 => .ok { s with busy := b }
  | .reachStopped =>
    if s.phase = .stopping ∧ s.queue = [] ∧ s.busy = 0 then
      .ok { s with phase := .stopped }
    else .blocked

/-- Modelled from the spec: a run of the pool along a sequence of events;
`none` when some event blocks or crashes. -/
def poolSteps (s : PoolState) : List PoolEvent → Option PoolState
  | [] => some s
  | e :: rest =>
    match poolStep s e with
    | .ok s' => poolSteps s' rest
    | _ => none

/-! ## Module-path canonicalization (android::modprobe::CanonicalizeModulePath) -/

/-- Index of the last occurrence of `c` in `s`, mirroring
`std::string::find_last_of` (with `none` for npos). -/
def find_last_of : List Char → Char → Option Nat
  | [], _ => none
  | a :: rest, c =>
    match find_last_of rest c with
    | some i => some (i + 1)
    | none => if a = c then some 0 else none

/-- Embedding of android::base::EndsWith for strings as char lists. -/
def endsWith (s t : List Char) : Bool :=
  decide (t.length ≤ s.length) && decide (s.drop (s.length - t.length) = t)

def koSuffix : List Char := ['.', 'k', 'o']

/-- Embedding of android::modprobe::CanonicalizeModulePath: `start` is one past
the last '/' (0 when there is none), `stop` is the length minus 3 when the path
ends in ".ko" and the length otherwise; when `stop - start <= 1` the function
logs an error and returns the empty string; otherwise it returns the substring
`[start, stop)` with every '-' replaced by '_'. -/
def CanonicalizeModulePath (module_path : List Char) : List Char :=
  let start : Nat :=
    match find_last_of module_path '/' with
    | none => 0
    | some i => i + 1
  let stop : Nat :=
    if endsWith module_path koSuffix then module_path.length - 3 else module_path.length
  if stop - start ≤ 1 then []
  else
    ((module_path.drop start).take (stop - start)).map (fun c => if c = '-' then '_' else c)

/-- Formalization of the claimed behaviour, in the claim's own words: the
substring after the last '/' (the whole string when there is no '/'). -/
def afterLastSlash : List Char → List Char
  | [] => []
  | c :: rest =>
    if ('/' : Char) ∈ rest then afterLastSlash rest
    else if c = '/' then rest
    else c :: rest

/-- The residual name of the claim: the substring after the last '/', with a
trailing ".ko" suffix removed, before any '-' replacement. -/
def residualName (p : List Char) : List Char :=
  let base := afterLastSlash p
  if endsWith base koSuffix then base.take (base.length - 3) else base

/-- The claimed input/output behaviour of CanonicalizeModulePath: empty exactly
when the residual name has length at most 1, and otherwise the residual name
with every '-' replaced by '_'. -/
def canonSpecC10 (p : List Char) : List Char :=
  if (residualName p).length ≤ 1 then []
  else (residualName p).map (fun c => if c = '-' then '_' else c)

/-! ## Lemmas -/

theorem strideLoop_mem (step N : Nat) (hstep : 0 < step) :
    ∀ (fuel i j : Nat), N - i ≤ fuel →
      (j ∈ strideLoop step N fuel i ↔ j < N ∧ i ≤ j ∧ (j - i) % step = 0) := by
  intro fuel
  induction fuel with
  | zero =>
    intro i j hle
    simp only [strideLoop, List.not_mem_nil, false_iff]
    intro hc
    omega
  | succ n ihn =>
    intro i j hle
    simp only [strideLoop]
    by_cases hs : i < N
    · simp only [hs, if_true, List.mem_cons]
      rw [ihn (i + step) j (by omega)]
      constructor
      · rintro (rfl | ⟨h1, h2, h3⟩)
        · exact ⟨hs, Nat.le_refl _, by simp⟩
        · refine ⟨h1, by omega, ?_⟩
          have hj : j - i = (j - (i + step)) + step := by omega
          rw [hj, Nat.add_mod_right]
          exact h3
      · rintro ⟨h1, h2, h3⟩
        rcases Nat.eq_or_lt_of_le h2 with heq | hlt
        · exact Or.inl heq.symm
        · right
          have hdvd : step ∣ (j - i) := Nat.dvd_of_mod_eq_zero h3
          have hpos : 0 < j - i := by omega
          have hge : step ≤ j - i := Nat.le_of_dvd hpos hdvd
          refine ⟨h1, by omega, ?_⟩
          have hj : j - i = (j - (i + step)) + step := by omega
          rw [hj, Nat.add_mod_right] at h3
          exact h3
    · simp only [hs, if_false, List.not_mem_nil, false_iff]
      intro hc
      omega

theorem strideIndices_mem (step N : Nat) (hstep : 0 < step) (start j : Nat) :
    j ∈ strideIndices start step N ↔ j < N ∧ start ≤ j ∧ (j - start) % step = 0 :=
  strideLoop_mem step N hstep (N - start) start j (Nat.le_refl _)

theorem strideIndices_mem_mod (M N i j : Nat) (hM : 0 < M) (hi : i < M) :
    j ∈ strideIndices i M N ↔ j < N ∧ j % M = i := by
  rw [strideIndices_mem M N hM i j]
  constructor
  · rintro ⟨h1, h2, h3⟩
    refine ⟨h1, ?_⟩
    obtain ⟨k, hk⟩ := Nat.dvd_of_mod_eq_zero h3
    have hj : j = M * k + i := by omega
    rw [hj, Nat.mul_add_mod]
    exact Nat.mod_eq_of_lt hi
  · rintro ⟨h1, h2⟩
    have hle : i ≤ j := by
      have := Nat.mod_le j M
      omega
    refine ⟨h1, hle, ?_⟩
    have hq : j = M * (j / M) + j % M := (Nat.div_add_mod j M).symm
    have : j - i = M * (j / M) := by omega
    rw [this]
    simp [Nat.mul_mod_right]

theorem waitForSubProcesses_done (evs : List WaitEvent) :
    ∀ t : List Nat, waitForSubProcesses t evs = .done →
      ∀ pid ∈ t, WaitEvent.reaped pid (.exited 0) ∈ evs := by
  induction evs with
  | nil =>
    intro t hdone pid hpid
    cases t with
    | nil => cases hpid
    | cons p ps => simp [waitForSubProcesses] at hdone
  | cons ev rest ih =>
    intro t hdone pid hpid
    cases t with
    | nil => cases hpid
    | cons p ps =>
      rw [waitForSubProcesses] at hdone
      cases hstep : waitStep (p :: ps) ev with
      | fatal => rw [hstep] at hdone; cases hdone
      | continueWith t' =>
        rw [hstep] at hdone
        simp only at hdone
        have hrest := ih t' hdone
        cases ev with
        | waitError =>
          simp only [waitStep] at hstep
          cases hstep
          exact List.mem_cons_of_mem _ (hrest pid hpid)
        | reaped q st =>
          by_cases hq : q ∈ p :: ps
          · cases st with
            | exited code =>
              by_cases hc : code = 0
              · subst hc
                simp only [waitStep, if_pos hq, if_true, WaitStep.continueWith.injEq]
                  at hstep
                subst hstep
                by_cases hpq : pid = q
                · subst hpq
                  exact List.mem_cons_self _ _
                · refine List.mem_cons_of_mem _ (hrest pid ?_)
                  exact (List.mem_erase_of_ne hpq).mpr hpid
              · simp only [waitStep, if_pos hq, if_neg hc] at hstep
                cases hstep
            | signaled sig =>
              simp only [waitStep, if_pos hq] at hstep
              cases hstep
          · simp only [waitStep, if_neg hq] at hstep
            cases hstep
            exact List.mem_cons_of_mem _ (hrest pid hpid)

/-! ## Claim theorems -/

/-- Claim C1: for every worker count M ≥ 1 and every backlog of size N, the
strided partition used by UeventHandlerMain and RestoreConHandler assigns each
index 0..N-1 to exactly one worker, namely worker j % M: the union over workers
0..M-1 of the visited indices covers every index exactly once (total,
disjoint), and the assignment is a pure function of (index, M), independent of
runtime timing. -/
theorem claim_C1_strided_partition (M N : Nat) (hM : 1 ≤ M) :
    (∀ j, j < N → ∃! i, i < M ∧ j ∈ strideIndices i M N) ∧
    (∀ i j, i < M → (j ∈ strideIndices i M N ↔ j < N ∧ j % M = i)) := by
  have hM0 : 0 < M := hM
  constructor
  · intro j hj
    have hjm : j % M < M := Nat.mod_lt j hM0
    refine ⟨j % M, ⟨hjm, ?_⟩, ?_⟩
    · rw [strideIndices_mem_mod M N (j % M) j hM0 hjm]
      exact ⟨hj, rfl⟩
    · rintro i ⟨hi, hmem⟩
      rw [strideIndices_mem_mod M N i j hM0 hi] at hmem
      exact hmem.2.symm
  · intro i j hi
    exact strideIndices_mem_mod M N i j hM0 hi

/-- Witness for C1 at worker count 3, backlog size 7, index 5. -/
theorem claim_C1_witness :
    (1 ≤ 3) ∧ (∃! i, i < 3 ∧ 5 ∈ strideIndices i 3 7) :=
  ⟨by decide, (claim_C1_strided_partition 3 7 (by decide)).1 5 (by decide)⟩

/-- Claim C2: WaitForSubProcesses removes a tracked pid from the live set only
on a success exit; an untracked reaped pid is ignored; a tracked pid exiting
non-zero or dying by signal is fatal; a wait error leaves the tracked set
unchanged (logged and retried, not fatal); and the loop reports completion only
when every tracked pid has been reaped with the success status. -/
theorem claim_C2_wait_for_subprocesses (t : List Nat) :
    (∀ ev t', waitStep t ev = .continueWith t' →
      t' = t ∨ ∃ pid, pid ∈ t ∧ ev = .reaped pid (.exited 0) ∧ t' = t.erase pid) ∧
    (∀ pid st, pid ∉ t → waitStep t (.reaped pid st) = .continueWith t) ∧
    (∀ pid, pid ∈ t → waitStep t (.reaped pid (.exited 0)) = .continueWith (t.erase pid)) ∧
    (∀ pid code, pid ∈ t → code ≠ 0 → waitStep t (.reaped pid (.exited code)) = .fatal) ∧
    (∀ pid sig, pid ∈ t → waitStep t (.reaped pid (.signaled sig)) = .fatal) ∧
    (waitStep t .waitError = .continueWith t) ∧
    (∀ evs, waitForSubProcesses t evs = .done →
      ∀ pid ∈ t, WaitEvent.reaped pid (.exited 0) ∈ evs) := by
  refine ⟨?_, ?_, ?_, ?_, ?_, rfl, fun evs => waitForSubProcesses_done evs t⟩
  · intro ev t' hstep
    cases ev with
    | waitError =>
      simp only [waitStep] at hstep
      cases hstep
      exact Or.inl rfl
    | reaped q st =>
      by_cases hq : q ∈ t
      · cases st with
        | exited code =>
          by_cases hc : code = 0
          · subst hc
            simp only [waitStep, if_pos hq, if_true, WaitStep.continueWith.injEq] at hstep
            exact Or.inr ⟨q, hq, rfl, hstep.symm⟩
          · simp only [waitStep, if_pos hq, if_neg hc] at hstep
            cases hstep
        | signaled sig =>
          simp only [waitStep, if_pos hq] at hstep
          cases hstep
      · simp only [waitStep, if_neg hq] at hstep
        cases hstep
        exact Or.inl rfl
  · intro pid st hpid
    simp only [waitStep, if_neg hpid]
  · intro pid hpid
    simp only [waitStep, if_pos hpid, if_true]
  · intro pid code hpid hcode
    simp only [waitStep, if_pos hpid, if_neg hcode]
  · intro pid sig hpid
    simp only [waitStep, if_pos hpid]

/-- Witness for C2 with tracked set [5, 7]: pid 9 is ignored, pid 5 success
removes it, pid 7 exiting 3 is fatal, and a run reaping 5 then 7 succeeds. -/
theorem claim_C2_witness :
    waitStep [5, 7] (.reaped 5 (.exited 0)) = .continueWith ([5, 7].erase 5) ∧
    waitStep [5, 7] (.reaped 9 (.exited 0)) = .continueWith [5, 7] ∧
    waitStep [5, 7] (.reaped 7 (.exited 3)) = .fatal :=
  ⟨(claim_C2_wait_for_subprocesses [5, 7]).2.2.1 5 (by decide),
   (claim_C2_wait_for_subprocesses [5, 7]).2.1 9 _ (by decide),
   (claim_C2_wait_for_subprocesses [5, 7]).2.2.2.1 7 3 (by decide) (by decide)⟩

theorem forkLoop_success (pidOf : Nat → Nat) :
    ∀ (l pids : List Nat),
      forkLoop (fun i => some (pidOf i)) l pids = some (pids ++ l.map pidOf) := by
  intro l
  induction l with
  | nil => intro pids; simp [forkLoop]
  | cons i rest ih =>
    intro pids
    simp only [forkLoop, List.map_cons]
    rw [ih]
    simp

theorem forkLoop_failure (fork : Nat → Option Nat) :
    ∀ (l pids : List Nat), (∃ i ∈ l, fork i = none) → forkLoop fork l pids = none := by
  intro l
  induction l with
  | nil =>
    intro pids h
    obtain ⟨i, hi, _⟩ := h
    cases hi
  | cons a rest ih =>
    intro pids h
    obtain ⟨i, hi, hnone⟩ := h
    simp only [forkLoop]
    cases hfa : fork a with
    | none => rfl
    | some p =>
      rcases List.mem_cons.mp hi with rfl | hmem
      · rw [hfa] at hnone; cases hnone
      · exact ih _ ⟨i, hmem, hnone⟩

theorem restoreConEntryStep_mem (pq : List String) (dir : String) (q : List String)
    (e : DirEntry) (f : String) :
    f ∈ restoreConEntryStep pq dir q e ↔
      f ∈ q ∨ (¬(e.name = "." ∨ e.name = "..") ∧ e.statOk = true ∧ e.isDir = true ∧
        f = dir ++ "/" ++ e.name ∧ f ∉ pq) := by
  unfold restoreConEntryStep
  by_cases h1 : e.name = "." ∨ e.name = ".."
  · simp [h1]
  · rw [if_neg h1]
    by_cases h2 : e.statOk = false
    · have : ¬ e.statOk = true := by simp [h2]
      simp [h2, this]
    · have h2' : e.statOk = true := by
        cases hb : e.statOk
        · exact absurd hb h2
        · rfl
      rw [if_neg h2]
      by_cases h3 : e.isDir = true
      · rw [if_pos h3]
        by_cases h4 : dir ++ "/" ++ e.name ∈ pq
        · simp only [if_pos h4]
          constructor
          · intro hf; exact Or.inl hf
          · rintro (hf | ⟨_, _, _, rfl, hnot⟩)
            · exact hf
            · exact absurd h4 hnot
        · simp only [if_neg h4, List.mem_append, List.mem_singleton]
          constructor
          · rintro (hf | rfl)
            · exact Or.inl hf
            · exact Or.inr ⟨h1, h2', h3, rfl, h4⟩
          · rintro (hf | ⟨_, _, _, rfl, _⟩)
            · exact Or.inl hf
            · exact Or.inr rfl
      · have h3' : ¬ e.isDir = true := h3
        simp [h3']


theorem generateRestoreCon_mem (pq : List String) (dir : String) (entries : List DirEntry) :
    ∀ (rq : List String) (f : String),
      f ∈ generateRestoreCon pq rq dir (some entries) ↔
        f ∈ rq ∨ ∃ e ∈ entries, ¬(e.name = "." ∨ e.name = "..") ∧ e.statOk = true ∧
          e.isDir = true ∧ f = dir ++ "/" ++ e.name ∧ f ∉ pq := by
  induction entries with
  | nil =>
    intro rq f
    simp [generateRestoreCon]
  | cons e rest ih =>
    intro rq f
    show f ∈ (e :: rest).foldl (restoreConEntryStep pq dir) rq ↔ _
    rw [List.foldl_cons]
    have hstep := restoreConEntryStep_mem pq dir rq e f
    have htail := ih (restoreConEntryStep pq dir rq e) f
    rw [List.exists_mem_cons_iff
      (fun e => ¬(e.name = "." ∨ e.name = "..") ∧ e.statOk = true ∧
        e.isDir = true ∧ f = dir ++ "/" ++ e.name ∧ f ∉ pq) e rest]
    constructor
    · intro hmem
      rcases htail.mp hmem with hq | hrest
      · rcases hstep.mp hq with hq' | he
        · exact Or.inl hq'
        · exact Or.inr (Or.inl he)
      · exact Or.inr (Or.inr hrest)
    · rintro (hq | he | hrest)
      · exact htail.mpr (Or.inl (hstep.mpr (Or.inl hq)))
      · exact htail.mpr (Or.inl (hstep.mpr (Or.inr he)))
      · exact htail.mpr (Or.inr hrest)

/-- Claim C4: ForkSubProcesses creates exactly `num_handler_subprocesses_` child
processes (one pid tracked per worker index when every fork succeeds); each
child with assignment index i applies every uevent handler to its owned
partition of the backlog, performs recursive restorecon on its owned partition
of the restorecon queue if and only if parallel restorecon is enabled, and
exits with the success status 0; a fork failure for any child is fatal to the
parent. -/
theorem claim_C4_fork_subprocesses (num queueSize : Nat) (uevent_handlers : List Nat)
    (enable : Bool) (rq : List String) (hnum : 0 < num) :
    (∀ pidOf : Nat → Nat,
        forkSubProcesses (fun i => some (pidOf i)) num = some ((List.range num).map pidOf) ∧
        ((List.range num).map pidOf).length = num) ∧
    (∀ fork : Nat → Option Nat, (∃ i, i < num ∧ fork i = none) →
        forkSubProcesses fork num = none) ∧
    (∀ i, i < num → ∀ j h,
        ((j, h) ∈ (childRun i num queueSize uevent_handlers enable rq).ueventWork ↔
          j < queueSize ∧ j % num = i ∧ h ∈ uevent_handlers)) ∧
    (∀ i, i < num → ∀ d r,
        ((d, r) ∈ (childRun i num queueSize uevent_handlers enable rq).restoreconWork ↔
          enable = true ∧ r = true ∧ ∃ k, k < rq.length ∧ k % num = i ∧ d = rq.getD k "")) ∧
    (∀ i, (childRun i num queueSize uevent_handlers enable rq).exitStatus = 0) := by
  refine ⟨?_, ?_, ?_, ?_, fun i => rfl⟩
  · intro pidOf
    constructor
    · unfold forkSubProcesses
      rw [forkLoop_success pidOf (List.range num) []]
      simp
    · simp
  · intro fork ⟨i, hi, hnone⟩
    unfold forkSubProcesses
    exact forkLoop_failure fork _ [] ⟨i, List.mem_range.mpr hi, hnone⟩
  · intro i hi j h
    unfold childRun ueventHandlerMain
    simp only [List.mem_flatMap, List.mem_map, Prod.mk.injEq]
    constructor
    · rintro ⟨idx, hidx, h', hh', heq1, heq2⟩
      subst heq1; subst heq2
      have := (strideIndices_mem_mod num queueSize i idx hnum hi).mp hidx
      exact ⟨this.1, this.2, hh'⟩
    · rintro ⟨hj, hmod, hh⟩
      exact ⟨j, (strideIndices_mem_mod num queueSize i j hnum hi).mpr ⟨hj, hmod⟩,
        h, hh, rfl, rfl⟩
  · intro i hi d r
    unfold childRun restoreConHandler
    cases enable with
    | false => simp
    | true =>
      simp only [if_true, List.mem_map, Prod.mk.injEq, eq_self_iff_true, true_and]
      constructor
      · rintro ⟨k, hk, heq1, heq2⟩
        have hkk := (strideIndices_mem_mod num rq.length i k hnum hi).mp hk
        exact ⟨heq2.symm, k, hkk.1, hkk.2, heq1.symm⟩
      · rintro ⟨rfl, k, hk, hmod, rfl⟩
        exact ⟨k, (strideIndices_mem_mod num rq.length i k hnum hi).mpr ⟨hk, hmod⟩,
          rfl, rfl⟩

/-- Witness for C4: two workers with distinct pids fork successfully. -/
theorem claim_C4_witness :
    forkSubProcesses (fun i => some (i + 100)) 2 =
      some ((List.range 2).map (fun i => i + 100)) ∧
    ((List.range 2).map (fun i => i + 100)).length = 2 :=
  (claim_C4_fork_subprocesses 2 3 [10, 20] true ["a", "b", "c"] (by decide)).1
    (fun i => i + 100)

/-- Claim C5: GenerateRestoreCon adds an immediate subdirectory of a
parallel-target directory to the discovered restorecon queue if and only if its
full path is not exactly equal to a member of the parallel-target list; hence
no path in the resulting queue is also an explicit parallel target. -/
theorem claim_C5_generate_restorecon_dedup (pq rq : List String) (dir : String)
    (entries : List DirEntry) (hinit : ∀ f ∈ rq, f ∉ pq) :
    (∀ e ∈ entries, ¬(e.name = "." ∨ e.name = "..") → e.statOk = true → e.isDir = true →
      ((dir ++ "/" ++ e.name) ∈ generateRestoreCon pq rq dir (some entries) ↔
        (dir ++ "/" ++ e.name) ∉ pq)) ∧
    (∀ f ∈ generateRestoreCon pq rq dir (some entries), f ∉ pq) := by
  have hmem := generateRestoreCon_mem pq dir entries rq
  have hsecond : ∀ f ∈ generateRestoreCon pq rq dir (some entries), f ∉ pq := by
    intro f hf
    rcases (hmem f).mp hf with hq | ⟨e, _, _, _, _, _, hnot⟩
    · exact hinit f hq
    · exact hnot
  refine ⟨?_, hsecond⟩
  intro e he hname hstat hdir
  constructor
  · intro hf
    exact hsecond _ hf
  · intro hnot
    exact (hmem _).mpr (Or.inr ⟨e, he, hname, hstat, hdir, rfl, hnot⟩)

/-- Witness for C5: under target list ["/sys", "/sys/devices"], the discovered
subdirectory "/sys/devices" is skipped and "/sys/kernel" is added. -/
theorem claim_C5_witness :
    ("/sys/kernel" ∈ generateRestoreCon ["/sys", "/sys/devices"] [] "/sys"
        (some [DirEntry.mk "devices" true true, DirEntry.mk "kernel" true true]) ↔
      ("/sys/kernel" : String) ∉ ["/sys", "/sys/devices"]) ∧
    (∀ f ∈ generateRestoreCon ["/sys", "/sys/devices"] [] "/sys"
        (some [DirEntry.mk "devices" true true, DirEntry.mk "kernel" true true]),
      f ∉ ["/sys", "/sys/devices"]) :=
  ⟨(claim_C5_generate_restorecon_dedup ["/sys", "/sys/devices"] [] "/sys"
      [DirEntry.mk "devices" true true, DirEntry.mk "kernel" true true]
      (by intro f hf; cases hf)).1
    (DirEntry.mk "kernel" true true) (by decide) (by decide) (by decide) (by decide),
   (claim_C5_generate_restorecon_dedup ["/sys", "/sys/devices"] [] "/sys"
      [DirEntry.mk "devices" true true, DirEntry.mk "kernel" true true]
      (by intro f hf; cases hf)).2⟩

theorem seedFold_preserves (listing : String → Option (List DirEntry)) :
    ∀ (l : List String) (s : ColdBootState) (tr : List Effect),
      ((l.foldl (seedStep listing) (s, tr)).1.enable_parallel_restorecon
          = s.enable_parallel_restorecon) ∧
      ((l.foldl (seedStep listing) (s, tr)).1.parallel_restorecon_queue
          = s.parallel_restorecon_queue) ∧
      (∀ e ∈ (l.foldl (seedStep listing) (s, tr)).2,
          e ∈ tr ∨ ∃ d, e = Effect.restorecon d false) := by
  intro l
  induction l with
  | nil => intro s tr; exact ⟨rfl, rfl, fun e he => Or.inl he⟩
  | cons d rest ih =>
    intro s tr
    rw [List.foldl_cons]
    obtain ⟨h1, h2, h3⟩ := ih
      { s with restorecon_queue := (generateRestoreCon s.parallel_restorecon_queue
          s.restorecon_queue d (listing d)) }
      (tr ++ [Effect.restorecon d false])
    refine ⟨h1, h2, ?_⟩
    intro e he
    rcases h3 e he with hin | hex
    · rcases List.mem_append.mp hin with hin1 | hin2
      · exact Or.inl hin1
      · exact Or.inr ⟨d, List.mem_singleton.mp hin2⟩
    · exact Or.inr hex

theorem runSeedPhase_enable (listing : String → Option (List DirEntry))
    (s : ColdBootState) :
    (runSeedPhase listing s).1.enable_parallel_restorecon = s.enable_parallel_restorecon := by
  unfold runSeedPhase
  by_cases h : s.enable_parallel_restorecon = true
  · rw [if_pos h]
    exact (seedFold_preserves listing s.parallel_restorecon_queue s []).1
  · rw [if_neg h]

theorem runSeedPhase_pq (listing : String → Option (List DirEntry))
    (s : ColdBootState) :
    (runSeedPhase listing s).1.parallel_restorecon_queue = s.parallel_restorecon_queue := by
  unfold runSeedPhase
  by_cases h : s.enable_parallel_restorecon = true
  · rw [if_pos h]
    exact (seedFold_preserves listing s.parallel_restorecon_queue s []).2.1
  · rw [if_neg h]

theorem runSeedPhase_effects (listing : String → Option (List DirEntry))
    (s : ColdBootState) :
    ∀ e ∈ (runSeedPhase listing s).2, ∃ d, e = Effect.restorecon d false := by
  unfold runSeedPhase
  by_cases h : s.enable_parallel_restorecon = true
  · rw [if_pos h]
    intro e he
    rcases (seedFold_preserves listing s.parallel_restorecon_queue s []).2.2 e he with
      hin | hex
    · cases hin
    · exact hex
  · rw [if_neg h]
    intro e he
    cases he

theorem runRegenerate_enable (pending : List Nat) (s : ColdBootState) :
    (runRegenerate pending s).enable_parallel_restorecon = s.enable_parallel_restorecon := rfl

theorem runRegenerate_pq (pending : List Nat) (s : ColdBootState) :
    (runRegenerate pending s).parallel_restorecon_queue = s.parallel_restorecon_queue := rfl

theorem runDefaultTargets_pq (s : ColdBootState) :
    (runDefaultTargets s).parallel_restorecon_queue =
      (if s.enable_parallel_restorecon = true ∧ s.parallel_restorecon_queue = [] then
        ["/sys", "/sys/devices"]
      else s.parallel_restorecon_queue) := by
  unfold runDefaultTargets
  by_cases h : s.enable_parallel_restorecon = true ∧ s.parallel_restorecon_queue = []
  · rw [if_pos h, if_pos h]
  · rw [if_neg h, if_neg h]

theorem runDefaultTargets_enable (s : ColdBootState) :
    (runDefaultTargets s).enable_parallel_restorecon = s.enable_parallel_restorecon := by
  unfold runDefaultTargets
  by_cases h : s.enable_parallel_restorecon = true ∧ s.parallel_restorecon_queue = []
  · rw [if_pos h]
  · rw [if_neg h]

/-- Claim C6: in Run(), if parallel restorecon is enabled and the explicit
parallel-target list is empty, it is set to exactly ["/sys", "/sys/devices"];
if the list is non-empty it is left unchanged; if parallel restorecon is
disabled the list is not modified at all. -/
theorem claim_C6_default_parallel_targets (listing : String → Option (List DirEntry))
    (pending : List Nat) (s : ColdBootState) :
    (coldBootRun listing pending s).1.parallel_restorecon_queue =
      (if s.enable_parallel_restorecon = true ∧ s.parallel_restorecon_queue = [] then
        ["/sys", "/sys/devices"]
      else s.parallel_restorecon_queue) := by
  have hst : (coldBootRun listing pending s).1 =
      (runSeedPhase listing (runDefaultTargets (runRegenerate pending s))).1 := rfl
  rw [hst, runSeedPhase_pq, runDefaultTargets_pq]
  simp only [runRegenerate_enable, runRegenerate_pq]

/-- Claim C7: if parallel labeling is not enabled, Run() performs a recursive
restorecon of "/sys" in the parent process after the fork fan-out; if parallel
labeling is enabled, no recursive restorecon of "/sys" occurs in the parent
trace at all (the seed loop is non-recursive). -/
theorem claim_C7_sequential_remainder (listing : String → Option (List DirEntry))
    (pending : List Nat) (s : ColdBootState) :
    ∃ pre post : List Effect,
      (coldBootRun listing pending s).2 = pre ++ Effect.forkSubProcesses :: post ∧
      Effect.restorecon "/sys" true ∉ pre ∧
      (Effect.restorecon "/sys" true ∈ post ↔ s.enable_parallel_restorecon = false) := by
  have hen : (runSeedPhase listing
        (runDefaultTargets (runRegenerate pending s))).1.enable_parallel_restorecon
      = s.enable_parallel_restorecon := by
    rw [runSeedPhase_enable, runDefaultTargets_enable, runRegenerate_enable]
  have heff := runSeedPhase_effects listing (runDefaultTargets (runRegenerate pending s))
  set seeded := runSeedPhase listing (runDefaultTargets (runRegenerate pending s)) with hsd
  have htrace : (coldBootRun listing pending s).2 =
      [Effect.regenerateUevents] ++ seeded.2 ++ [Effect.forkSubProcesses]
        ++ (if seeded.1.enable_parallel_restorecon then []
            else [Effect.restorecon "/sys" true])
        ++ [Effect.waitForSubProcesses, Effect.setProperty kColdBootDoneProp "true"] := rfl
  refine ⟨Effect.regenerateUevents :: seeded.2,
    (if seeded.1.enable_parallel_restorecon then [] else [Effect.restorecon "/sys" true])
      ++ [Effect.waitForSubProcesses, Effect.setProperty kColdBootDoneProp "true"],
    ?_, ?_, ?_⟩
  · rw [htrace]
    simp
  · intro hmem
    rcases List.mem_cons.mp hmem with h1 | h1
    · exact Effect.noConfusion h1
    · obtain ⟨d, hd⟩ := heff _ h1
      simp at hd
  · cases hb : s.enable_parallel_restorecon with
    | true =>
      rw [hb] at hen
      simp [hen]
    | false =>
      rw [hb] at hen
      simp [hen]

/-- Claim C8: Run() publishes the cold-boot done property exactly once, and at
a trace position strictly after WaitForSubProcesses has returned; no earlier
effect sets the property to any value (so nothing resets it). -/
theorem claim_C8_completion_signal (listing : String → Option (List DirEntry))
    (pending : List Nat) (s : ColdBootState) :
    ∃ pre : List Effect,
      (coldBootRun listing pending s).2 =
        pre ++ [Effect.waitForSubProcesses, Effect.setProperty kColdBootDoneProp "true"] ∧
      (∀ v, Effect.setProperty kColdBootDoneProp v ∉ pre) ∧
      (coldBootRun listing pending s).2.count
        (Effect.setProperty kColdBootDoneProp "true") = 1 := by
  have heff := runSeedPhase_effects listing (runDefaultTargets (runRegenerate pending s))
  set seeded := runSeedPhase listing (runDefaultTargets (runRegenerate pending s)) with hsd
  have htrace : (coldBootRun listing pending s).2 =
      (Effect.regenerateUevents ::
        (seeded.2 ++ [Effect.forkSubProcesses]
          ++ (if seeded.1.enable_parallel_restorecon then []
              else [Effect.restorecon "/sys" true])))
        ++ [Effect.waitForSubProcesses, Effect.setProperty kColdBootDoneProp "true"] := by
    show [Effect.regenerateUevents] ++ seeded.2 ++ [Effect.forkSubProcesses]
        ++ (if seeded.1.enable_parallel_restorecon then []
            else [Effect.restorecon "/sys" true])
        ++ [Effect.waitForSubProcesses, Effect.setProperty kColdBootDoneProp "true"] = _
    simp
  have hnot : ∀ v, Effect.setProperty kColdBootDoneProp v ∉
      (Effect.regenerateUevents ::
        (seeded.2 ++ [Effect.forkSubProcesses]
          ++ (if seeded.1.enable_parallel_restorecon then []
              else [Effect.restorecon "/sys" true]))) := by
    intro v hmem
    rcases List.mem_cons.mp hmem with h1 | h1
    · exact Effect.noConfusion h1
    · rcases List.mem_append.mp h1 with h2 | h2
      · rcases List.mem_append.mp h2 with h3 | h3
        · obtain ⟨d, hd⟩ := heff _ h3
          exact Effect.noConfusion hd
        · rcases List.mem_singleton.mp h3 with h4
          exact Effect.noConfusion h4
      · by_cases hb : seeded.1.enable_parallel_restorecon = true
        · rw [if_pos hb] at h2
          cases h2
        · rw [if_neg hb] at h2
          rcases List.mem_singleton.mp h2 with h4
          exact Effect.noConfusion h4
  refine ⟨_, htrace, hnot, ?_⟩
  rw [htrace, List.count_append, List.count_eq_zero_of_not_mem (hnot "true")]
  simp

theorem poolStep_count (s s' : PoolState) (e : PoolEvent) (τ : Nat)
    (hok : poolStep s e = .ok s') (hne : e ≠ PoolEvent.enqueue τ) :
    s'.queue.count τ + s'.executed.count τ = s.queue.count τ + s.executed.count τ := by
  cases e with
  | enqueue t =>
    have ht : (t == τ) = false := by
      by_cases hb : t = τ
      · exact absurd (congrArg PoolEvent.enqueue hb) hne
      · simp [hb]
    cases hph : s.phase with
    | stopped =>
      simp only [poolStep, hph] at hok
      exact PoolStep.noConfusion hok
    | running =>
      simp only [poolStep, hph, PoolStep.ok.injEq] at hok
      subst hok
      simp [List.count_append, List.count_cons, ht]
    | stopping =>
      simp only [poolStep, hph, PoolStep.ok.injEq] at hok
      subst hok
      simp [List.count_append, List.count_cons, ht]
  | beginWait =>
    cases hph : s.phase with
    | running =>
      simp only [poolStep, hph, PoolStep.ok.injEq] at hok
      subst hok
      rfl
    | stopping =>
      simp only [poolStep, hph] at hok
      exact PoolStep.noConfusion hok
    | stopped =>
      simp only [poolStep, hph] at hok
      exact PoolStep.noConfusion hok
  | startTask =>
    cases hq : s.queue with
    | nil =>
      simp only [poolStep, hq] at hok
      exact PoolStep.noConfusion hok
    | cons t rest =>
      simp only [poolStep, hq, PoolStep.ok.injEq] at hok
      subst hok
      simp only [hq, List.count_append, List.count_cons, List.count_nil]
      omega
  | finishTask =>
    cases hb : s.busy with
    | zero =>
      simp only [poolStep, hb] at hok
      exact PoolStep.noConfusion hok
    | succ b =>
      simp only [poolStep, hb, PoolStep.ok.injEq] at hok
      subst hok
      rfl
  | reachStopped =>
    by_cases hc : s.phase = PoolPhase.stopping ∧ s.queue = [] ∧ s.busy = 0
    · simp only [poolStep, if_pos hc, PoolStep.ok.injEq] at hok
      subst hok
      rfl
    · simp only [poolStep, if_neg hc] at hok
      exact PoolStep.noConfusion hok

theorem poolStep_preserves_clean (s s' : PoolState) (e : PoolEvent)
    (hok : poolStep s e = .ok s')
    (hcl : s.phase = .stopped → s.queue = [] ∧ s.busy = 0) :
    s'.phase = .stopped → s'.queue = [] ∧ s'.busy = 0 := by
  cases e with
  | enqueue t =>
    cases hph : s.phase with
    | stopped =>
      simp only [poolStep, hph] at hok
      exact PoolStep.noConfusion hok
    | running =>
      simp only [poolStep, hph, PoolStep.ok.injEq] at hok
      subst hok
      intro h
      exact PoolPhase.noConfusion h
    | stopping =>
      simp only [poolStep, hph, PoolStep.ok.injEq] at hok
      subst hok
      intro h
      exact PoolPhase.noConfusion h
  | beginWait =>
    cases hph : s.phase with
    | running =>
      simp only [poolStep, hph, PoolStep.ok.injEq] at hok
      subst hok
      intro h
      have h' : PoolPhase.stopping = PoolPhase.stopped := h
      exact PoolPhase.noConfusion h'
    | stopping =>
      simp only [poolStep, hph] at hok
      exact PoolStep.noConfusion hok
    | stopped =>
      simp only [poolStep, hph] at hok
      exact PoolStep.noConfusion hok
  | startTask =>
    cases hq : s.queue with
    | nil =>
      simp only [poolStep, hq] at hok
      exact PoolStep.noConfusion hok
    | cons t rest =>
      simp only [poolStep, hq, PoolStep.ok.injEq] at hok
      subst hok
      intro h
      have h' : s.phase = PoolPhase.stopped := h
      have h2 := (hcl h').1
      rw [hq] at h2
      exact List.noConfusion h2
  | finishTask =>
    cases hb : s.busy with
    | zero =>
      simp only [poolStep, hb] at hok
      exact PoolStep.noConfusion hok
    | succ b =>
      simp only [poolStep, hb, PoolStep.ok.injEq] at hok
      subst hok
      intro h
      have h' : s.phase = PoolPhase.stopped := h
      have h2 := (hcl h').2
      omega
  | reachStopped =>
    by_cases hc : s.phase = PoolPhase.stopping ∧ s.queue = [] ∧ s.busy = 0
    · simp only [poolStep, if_pos hc, PoolStep.ok.injEq] at hok
      subst hok
      intro _
      exact ⟨hc.2.1, hc.2.2⟩
    · simp only [poolStep, if_neg hc] at hok
      exact PoolStep.noConfusion hok

theorem poolSteps_invariant (τ : Nat) :
    ∀ (evs : List PoolEvent) (s s' : PoolState),
      poolSteps s evs = some s' →
      (∀ e ∈ evs, e ≠ PoolEvent.enqueue τ) →
      (s.phase = .stopped → s.queue = [] ∧ s.busy = 0) →
      (s'.queue.count τ + s'.executed.count τ = s.queue.count τ + s.executed.count τ) ∧
      (s'.phase = .stopped → s'.queue = [] ∧ s'.busy = 0) := by
  intro evs
  induction evs with
  | nil =>
    intro s s' hrun hno hcl
    simp only [poolSteps, Option.some.injEq] at hrun
    subst hrun
    exact ⟨rfl, hcl⟩
  | cons e rest ih =>
    intro s s' hrun hno hcl
    rw [poolSteps] at hrun
    cases hstep : poolStep s e with
    | ok s1 =>
      rw [hstep] at hrun
      simp only at hrun
      have hne : e ≠ PoolEvent.enqueue τ := hno e (List.mem_cons_self e rest)
      have hcnt := poolStep_count s s1 e τ hstep hne
      have hcl1 := poolStep_preserves_clean s s1 e hstep hcl
      obtain ⟨ih1, ih2⟩ := ih s1 s' hrun (fun x hx => hno x (List.mem_cons_of_mem e hx)) hcl1
      exact ⟨by omega, ih2⟩
    | blocked =>
      rw [hstep] at hrun
      simp only at hrun
      exact Option.noConfusion hrun
    | fatalCrash =>
      rw [hstep] at hrun
      simp only at hrun
      exact Option.noConfusion hrun

/-- Claim C3 (ThreadPool modelled from the spec; the implementation is absent
from the studied sources, only its test suite is present): a task enqueued
strictly after Wait() has begun (pool in Stopping) but before Stopped is
accepted; the pool can never transition to Stopped while a task is queued; and
along any run reaching Stopped without re-enqueuing the task, the task has been
executed exactly once and is no longer pending when Wait() returns. -/
theorem claim_C3_enqueue_during_stopping (s s' : PoolState) (τ : Nat)
    (evs : List PoolEvent)
    (hph : s.phase = .stopping)
    (hq : s.queue.count τ = 0) (hx : s.executed.count τ = 0)
    (hno : ∀ e ∈ evs, e ≠ PoolEvent.enqueue τ) :
    poolStep s (.enqueue τ) = .ok { s with queue := s.queue ++ [τ] } ∧
    (∀ u v : PoolState, u.queue ≠ [] → poolStep u PoolEvent.reachStopped ≠ PoolStep.ok v) ∧
    (poolSteps { s with queue := s.queue ++ [τ] } evs = some s' →
      s'.phase = .stopped → s'.executed.count τ = 1 ∧ s'.queue.count τ = 0) := by
  refine ⟨by simp only [poolStep, hph], ?_, ?_⟩
  · intro u v hne
    by_cases hc : u.phase = PoolPhase.stopping ∧ u.queue = [] ∧ u.busy = 0
    · exact absurd hc.2.1 hne
    · simp only [poolStep, if_neg hc]
      exact fun h => PoolStep.noConfusion h
  · intro hrun hstopped
    have hcl : ({ s with queue := s.queue ++ [τ] } : PoolState).phase = .stopped →
        ({ s with queue := s.queue ++ [τ] } : PoolState).queue = [] ∧
        ({ s with queue := s.queue ++ [τ] } : PoolState).busy = 0 := by
      intro h
      have h' : s.phase = PoolPhase.stopped := h
      rw [hph] at h'
      exact PoolPhase.noConfusion h'
    obtain ⟨hcnt, hcl2⟩ := poolSteps_invariant τ evs _ s' hrun hno hcl
    have hq1 : ({ s with queue := s.queue ++ [τ] } : PoolState).queue.count τ = 1 := by
      simp [List.count_append, hq]
    have hx1 : ({ s with queue := s.queue ++ [τ] } : PoolState).executed.count τ = 0 := hx
    have hqe : s'.queue = [] := (hcl2 hstopped).1
    have hz : s'.queue.count τ = 0 := by rw [hqe]; rfl
    rw [hq1, hx1] at hcnt
    exact ⟨by omega, hz⟩

/-- Witness for C3: from a Stopping pool with one busy worker, enqueue task 5,
finish the running task, execute task 5, finish it, reach Stopped. -/
theorem claim_C3_witness :
    poolStep (PoolState.mk .stopping [] 1 [9]) (.enqueue 5) =
      .ok (PoolState.mk .stopping [5] 1 [9]) ∧
    (PoolState.mk .stopped ([] : List Nat) 0 [9, 5]).executed.count 5 = 1 ∧
    (PoolState.mk .stopped ([] : List Nat) 0 [9, 5]).queue.count 5 = 0 := by
  have T := claim_C3_enqueue_during_stopping (PoolState.mk .stopping [] 1 [9])
    (PoolState.mk .stopped [] 0 [9, 5]) 5
    [PoolEvent.finishTask, PoolEvent.startTask, PoolEvent.finishTask,
      PoolEvent.reachStopped]
    rfl (by decide) (by decide) (by decide)
  exact ⟨T.1, (T.2.2 (by decide) rfl).1, (T.2.2 (by decide) rfl).2⟩

/-- Claim C9 (ThreadPool modelled from the spec): once the pool is in the
terminal Stopped state, any subsequent Enqueue is a fatal crash of the process,
not an error return, a block, or a silent drop. -/
theorem claim_C9_enqueue_after_stop (s : PoolState) (t : Nat)
    (h : s.phase = .stopped) :
    poolStep s (.enqueue t) = .fatalCrash := by
  simp only [poolStep, h]

/-- Witness for C9: enqueue on a concrete stopped pool crashes. -/
theorem claim_C9_witness :
    poolStep (PoolState.mk .stopped [] 0 [4]) (.enqueue 3) = .fatalCrash :=
  claim_C9_enqueue_after_stop (PoolState.mk .stopped [] 0 [4]) 3 rfl

theorem find_last_of_none (s : List Char) (c : Char) :
    find_last_of s c = none ↔ c ∉ s := by
  induction s with
  | nil => simp [find_last_of]
  | cons a rest ih =>
    simp only [find_last_of]
    cases hrec : find_last_of rest c with
    | some j =>
      simp only [List.mem_cons, not_or]
      constructor
      · intro h
        cases h
      · rintro ⟨h1, h2⟩
        exact absurd (ih.mpr h2) (by rw [hrec]; exact fun h => Option.noConfusion h)
    | none =>
      have hnotin : c ∉ rest := ih.mp hrec
      by_cases hac : a = c
      · simp [hac]
      · simp only [if_neg hac, List.mem_cons, not_or]
        constructor
        · intro _
          exact ⟨fun h => hac h.symm, hnotin⟩
        · intro _
          trivial

theorem afterLastSlash_drop : ∀ p : List Char,
    afterLastSlash p =
      p.drop (match find_last_of p '/' with | none => 0 | some i => i + 1) := by
  intro p
  induction p with
  | nil => rfl
  | cons c rest ih =>
    cases hrec : find_last_of rest '/' with
    | some j =>
      have hmem : ('/' : Char) ∈ rest := by
        by_contra hn
        rw [(find_last_of_none rest '/').mpr hn] at hrec
        exact Option.noConfusion hrec
      rw [afterLastSlash]
      rw [if_pos hmem]
      simp only [find_last_of, hrec]
      rw [ih, hrec]
      exact List.drop_succ_cons.symm
    | none =>
      have hnm : ('/' : Char) ∉ rest := (find_last_of_none rest '/').mp hrec
      rw [afterLastSlash, if_neg hnm]
      by_cases hc : c = '/'
      · rw [if_pos hc]
        simp only [find_last_of, hrec, if_pos hc]
        simp
      · rw [if_neg hc]
        simp only [find_last_of, hrec, if_neg hc]
        simp

theorem afterLastSlash_suffix (p : List Char) : afterLastSlash p <:+ p := by
  rw [afterLastSlash_drop p]
  exact List.drop_suffix _ _

theorem endsWith_iff (s t : List Char) : endsWith s t = true ↔ t <:+ s := by
  unfold endsWith
  rw [Bool.and_eq_true, decide_eq_true_eq, decide_eq_true_eq]
  constructor
  · rintro ⟨_, h2⟩
    exact List.suffix_iff_eq_drop.mpr h2.symm
  · intro h
    exact ⟨h.length_le, (List.suffix_iff_eq_drop.mp h).symm⟩

theorem afterLastSlash_append (t : List Char) (hnt : ('/' : Char) ∉ t) :
    ∀ s : List Char, afterLastSlash (s ++ t) = afterLastSlash s ++ t := by
  intro s
  induction s with
  | nil =>
    show afterLastSlash t = afterLastSlash [] ++ t
    rw [afterLastSlash_drop t, (find_last_of_none t '/').mpr hnt]
    simp [afterLastSlash]
  | cons c s ih =>
    by_cases hs : ('/' : Char) ∈ s
    · have hst : ('/' : Char) ∈ s ++ t := List.mem_append.mpr (Or.inl hs)
      rw [List.cons_append, afterLastSlash, if_pos hst, ih, afterLastSlash, if_pos hs]
    · have hst : ('/' : Char) ∉ s ++ t := by
        intro hmem
        rcases List.mem_append.mp hmem with h | h
        · exact hs h
        · exact hnt h
      rw [List.cons_append, afterLastSlash, if_neg hst, afterLastSlash, if_neg hs]
      by_cases hc : c = '/'
      · rw [if_pos hc, if_pos hc]
      · rw [if_neg hc, if_neg hc, List.cons_append]

theorem endsWith_afterLastSlash (p : List Char) :
    endsWith p koSuffix = endsWith (afterLastSlash p) koSuffix := by
  have hko : ('/' : Char) ∉ koSuffix := by decide
  by_cases h : koSuffix <:+ p
  · obtain ⟨q, rfl⟩ := h
    have h1 : endsWith (q ++ koSuffix) koSuffix = true :=
      (endsWith_iff _ _).mpr ⟨q, rfl⟩
    have h2 : endsWith (afterLastSlash (q ++ koSuffix)) koSuffix = true := by
      rw [afterLastSlash_append koSuffix hko q]
      exact (endsWith_iff _ _).mpr ⟨afterLastSlash q, rfl⟩
    rw [h1, h2]
  · have h1 : endsWith p koSuffix = false := by
      cases hb : endsWith p koSuffix
      · rfl
      · exact absurd ((endsWith_iff p koSuffix).mp hb) h
    have h2 : endsWith (afterLastSlash p) koSuffix = false := by
      cases hb : endsWith (afterLastSlash p) koSuffix
      · rfl
      · exact absurd (((endsWith_iff _ koSuffix).mp hb).trans (afterLastSlash_suffix p)) h
    rw [h1, h2]

/-- Claim C10: for every input string, CanonicalizeModulePath returns the
substring after the last '/' (the whole string when there is no '/'), with a
trailing ".ko" suffix removed and every '-' character replaced by '_'; it
returns the empty string (logging an error) exactly when that residual name,
before the '-' replacement, has length at most 1. -/
theorem claim_C10_canonicalize_module_path (p : List Char) :
    CanonicalizeModulePath p = canonSpecC10 p ∧
    (CanonicalizeModulePath p = [] ↔ (residualName p).length ≤ 1) := by
  have hmain : CanonicalizeModulePath p = canonSpecC10 p := by
    cases hfl : find_last_of p '/' with
    | none =>
      have hbase : afterLastSlash p = p := by
        rw [afterLastSlash_drop p, hfl]
        simp
      cases he : endsWith p koSuffix with
      | true =>
        simp only [CanonicalizeModulePath, canonSpecC10, residualName, hfl, hbase, he,
          eq_self_iff_true, if_true, List.drop_zero, Nat.sub_zero]
        have hlen : (p.take (p.length - 3)).length = p.length - 3 := by
          rw [List.length_take]
          exact Nat.min_eq_left (by omega)
        rw [hlen]
      | false =>
        simp only [CanonicalizeModulePath, canonSpecC10, residualName, hfl, hbase, he,
          Bool.false_eq_true, if_false, List.drop_zero, Nat.sub_zero]
        rw [List.take_length]
    | some i =>
      have hbase : afterLastSlash p = p.drop (i + 1) := by
        rw [afterLastSlash_drop p, hfl]
      have hlend : (p.drop (i + 1)).length = p.length - (i + 1) := by
        simp
      cases he : endsWith p koSuffix with
      | true =>
        have hbew : endsWith (p.drop (i + 1)) koSuffix = true := by
          rw [← hbase, ← endsWith_afterLastSlash]
          exact he
        simp only [CanonicalizeModulePath, canonSpecC10, residualName, hfl, hbase, he, hbew,
          eq_self_iff_true, if_true]
        have h2 : p.length - 3 - (i + 1) = (p.drop (i + 1)).length - 3 := by
          rw [hlend]
          omega
        rw [h2]
        have h3 : ((p.drop (i + 1)).take ((p.drop (i + 1)).length - 3)).length
            = (p.drop (i + 1)).length - 3 := by
          rw [List.length_take]
          exact Nat.min_eq_left (by omega)
        rw [h3]
      | false =>
        have hbew : endsWith (p.drop (i + 1)) koSuffix = false := by
          rw [← hbase, ← endsWith_afterLastSlash]
          exact he
        simp only [CanonicalizeModulePath, canonSpecC10, residualName, hfl, hbase, he, hbew,
          Bool.false_eq_true, if_false]
        rw [← hlend, List.take_length]
  refine ⟨hmain, ?_⟩
  rw [hmain]
  unfold canonSpecC10
  by_cases h : (residualName p).length ≤ 1
  · rw [if_pos h]
    simp [h]
  · rw [if_neg h]
    constructor
    · intro hmap
      have h0 : residualName p = [] := List.map_eq_nil_iff.mp hmap
      rw [h0]
      simp
    · intro hle
      exact absurd hle h

end SystemCore
